import Mathlib

/-!
Verification of the streaming measurement core of the golpm power meter
(`pkg/meter`): the time-windowed sample buffer with lock-step derivative
tracking, the pulse-detection state machine with gap tolerance and the
minimum-duration noise filter, and the shutdown/callback discipline.

The Go code is shallowly embedded: `float64` readings and `time.Time`
timestamps become exact rationals (timestamps measured in seconds),
`time.Duration` comparisons become rational comparisons in seconds, and
buffer indices stored in pulses become integers because the eviction
renumbering subtracts a count and then tests for negative indices, exactly
as the Go `int` arithmetic does.
-/

set_option maxHeartbeats 1000000

namespace Golpm

/-- A physical sample (`sample.Sample`): timestamp (seconds), reading (V),
voltage (V), heater power (W). -/
structure Sample where
  timestamp : ℚ
  reading : ℚ
  voltage : ℚ
  heaterPower : ℚ
deriving DecidableEq, Repr, Inhabited

/-- A detected heating pulse (`meter.Pulse`). -/
structure Pulse where
  startIndex : ℤ
  endIndex : ℤ
  startTime : ℚ
  endTime : ℚ
  rawValue : ℚ
  power : ℚ
deriving DecidableEq, Repr, Inhabited

/-- The measurement part of the configuration (`config.MeasurementConfig`). -/
structure Config where
  windowSeconds : ℚ
  pulseThreshold : ℚ
  minPulseDuration : ℚ
deriving DecidableEq, Repr, Inhabited

/-- State of a `meter.Meter`: the FIFO sample buffer, the lock-step derivative
buffer, the detected pulses, the configured durations/threshold, and the
shutdown flag that gates callback delivery. -/
structure Meter where
  samples : List Sample
  derivatives : List ℚ
  pulses : List Pulse
  windowDuration : ℚ
  threshold : ℚ
  minPulseDuration : ℚ
  shutdown : Bool
deriving DecidableEq, Repr, Inhabited

/-- `meter.New`: a fresh meter with empty buffers and the configured
window/threshold/minimum pulse duration. -/
def New (cfg : Config) : Meter :=
  { samples := [], derivatives := [], pulses := [],
    windowDuration := cfg.windowSeconds,
    threshold := cfg.pulseThreshold,
    minPulseDuration := cfg.minPulseDuration,
    shutdown := false }

/-- First index of a sample satisfying `p`, if any: the search loop of
`processSample` that computes `cutoffIndex` (`for i, sample := range m.samples
{ if ... { cutoffIndex = i; break } }`). -/
def firstIdx? (p : Sample → Bool) : List Sample → Option ℕ
  | [] => none
  | a :: t => if p a then some 0 else (firstIdx? p t).map (· + 1)

/-- The eviction count of `processSample`: the first index (in the buffer with
the new sample already appended) whose timestamp is strictly after
`s.Timestamp − windowDuration`; `0` when no sample is after the cutoff,
matching the Go loop's unchanged `cutoffIndex := 0`. -/
def evictCount (m : Meter) (s : Sample) : ℕ :=
  (firstIdx? (fun x => decide (s.timestamp - m.windowDuration < x.timestamp))
    (m.samples ++ [s])).getD 0

/-- The sample-eviction step of `processSample`: `if cutoffIndex > 0
{ m.samples = m.samples[cutoffIndex:] }`. -/
def evictSamples (samples : List Sample) (k : ℕ) : List Sample :=
  if 0 < k then samples.drop k else samples

/-- The derivative-eviction step of `processSample`: drop the same count of
leading derivatives, clearing them entirely when more would be removed than
exist. -/
def evictDerivs (derivs : List ℚ) (k : ℕ) : List ℚ :=
  if 0 < k then
    if k ≤ derivs.length then derivs.drop k else []
  else derivs

/-- The pulse-renumbering step of `processSample`: shift both indices down by
the eviction count and drop any pulse whose indices became negative. -/
def evictPulses (pulses : List Pulse) (k : ℕ) : List Pulse :=
  if 0 < k then
    (pulses.map (fun p =>
        { p with startIndex := p.startIndex - (k : ℤ),
                 endIndex := p.endIndex - (k : ℤ) })).filter
      (fun p => decide (0 ≤ p.startIndex) && decide (0 ≤ p.endIndex))
  else pulses

/-- The derivative-append step of `processSample`: when at least two samples
remain and the newest pair has positive `dt`, append `(Δreading)/dt`, with the
defensive removal of the oldest derivative should the count overshoot. -/
def derivStep (samples2 : List Sample) (derivs2 : List ℚ) : List ℚ :=
  if 2 ≤ samples2.length then
    let prev := samples2.getD (samples2.length - 2) default
    let curr := samples2.getD (samples2.length - 1) default
    let dt := curr.timestamp - prev.timestamp
    if 0 < dt then
      let ds := derivs2 ++ [(curr.reading - prev.reading) / dt]
      if samples2.length - 1 < ds.length then ds.drop 1 else ds
    else derivs2
  else derivs2

/-- The buffer-update part of `meter.processSample`: append the sample, evict
out-of-window samples together with the corresponding leading derivatives,
renumber and filter the pulses, then append the derivative of the newest
sample pair when at least two samples remain and time advanced. -/
def ingestSample (m : Meter) (s : Sample) : Meter :=
  let samples1 := m.samples ++ [s]
  let k := evictCount m s
  let samples2 := evictSamples samples1 k
  let derivs2 := evictDerivs m.derivatives k
  let pulses2 := evictPulses m.pulses k
  let derivs3 := derivStep samples2 derivs2
  { m with samples := samples2, derivatives := derivs3, pulses := pulses2 }

/-- A pulse record after the extension write of `updatePulses`
(`EndIndex`, `EndTime`, `RawValue` updated in place). -/
def extendPulse (p : Pulse) (idx : ℤ) (t d : ℚ) : Pulse :=
  { p with endIndex := idx, endTime := t, rawValue := d }

/-- The backwards search for the active pulse in `updatePulses`
(`for i := len(m.pulses) - 1; i >= 0; i--`): the last list index whose pulse
has the given `EndIndex`. -/
def findLastIdx (ps : List Pulse) (tgt : ℤ) : Option ℕ :=
  match ps with
  | [] => none
  | p :: rest =>
    match findLastIdx rest tgt with
    | some j => some (j + 1)
    | none => if p.endIndex = tgt then some 0 else none

/-- The detection part of `meter.updatePulses` (the `if isHeating` block):
extend the active pulse whose `EndIndex` equals `lastSampleIdx-1`, or decide
`shouldStart` from the previous derivative and the gap to the last pulse and
open a new pulse, or extend the last pulse under the gap tolerance of 2
samples. -/
def detectPhase (m : Meter) : List Pulse :=
  let lastDerivIdx := m.derivatives.length - 1
  let lastDeriv := m.derivatives.getD lastDerivIdx 0
  let lastSampleIdx : ℤ := (m.samples.length : ℤ) - 1
  if m.threshold < lastDeriv then
    match findLastIdx m.pulses (lastSampleIdx - 1) with
    | some i =>
        m.pulses.set i
          (extendPulse (m.pulses.getD i default) lastSampleIdx
            (m.samples.getD (m.samples.length - 1) default).timestamp lastDeriv)
    | none =>
        let shouldStart : Bool :=
          if 0 < lastDerivIdx then
            if m.threshold < m.derivatives.getD (lastDerivIdx - 1) 0 then
              match m.pulses.getLast? with
              | some lastPulse => decide (lastPulse.endIndex + 1 < lastSampleIdx - 1)
              | none => false
            else true
          else true
        if shouldStart then
          let startIdx : ℤ := max (lastSampleIdx - 1) 0
          let newPulse : Pulse :=
            { startIndex := startIdx, endIndex := lastSampleIdx,
              startTime := (m.samples.getD startIdx.toNat default).timestamp,
              endTime := (m.samples.getD (m.samples.length - 1) default).timestamp,
              rawValue := lastDeriv, power := 0 }
          m.pulses ++ [newPulse]
        else
          match m.pulses.getLast? with
          | some lastPulse =>
              if lastSampleIdx ≤ lastPulse.endIndex + 2 then
                m.pulses.set (m.pulses.length - 1)
                  (extendPulse lastPulse lastSampleIdx
                    (m.samples.getD (m.samples.length - 1) default).timestamp lastDeriv)
              else m.pulses
          | none => m.pulses
  else m.pulses

/-- The noise/window filter ending `meter.updatePulses`: keep a pulse iff its
`StartIndex` is a valid sample index and its duration reaches
`minPulseDuration`. -/
def filterPhase (samplesLen : ℕ) (minDur : ℚ) (pulses : List Pulse) : List Pulse :=
  pulses.filter (fun p =>
    decide (0 ≤ p.startIndex) && decide (p.startIndex < (samplesLen : ℤ)) &&
      decide (minDur ≤ p.endTime - p.startTime))

/-- `meter.updatePulses`: return unchanged when there are no derivatives;
otherwise run the detection phase followed by the minimum-duration/window
filter. -/
def updatePulses (m : Meter) : Meter :=
  if m.derivatives.isEmpty then m
  else { m with pulses := filterPhase m.samples.length m.minPulseDuration (detectPhase m) }

/-- `meter.processSample` (state part): buffer update followed by pulse
detection. The callback notification it ends with is modelled by
`notifies`. -/
def processSample (m : Meter) (s : Sample) : Meter :=
  updatePulses (ingestSample m s)

/-- Whether `processSample` run on state `m` reaches `notifyCallbacks`: the Go
code computes `shouldNotify := !m.shutdown` and only then invokes the
registered callbacks. -/
def notifies (m : Meter) : Bool :=
  !m.shutdown

/-- The ingestion loop of `meter.ProcessSamples`: process the samples of the
input channel in order. -/
def runSamples (m : Meter) (l : List Sample) : Meter :=
  l.foldl processSample m

/-- `meter.ProcessSamples`: drain the input channel, then set the shutdown
flag. -/
def ProcessSamples (m : Meter) (input : List Sample) : Meter :=
  { runSamples m input with shutdown := true }

/-- `meter.ResetShutdown`: clear the shutdown flag, leaving every buffer
untouched. -/
def ResetShutdown (m : Meter) : Meter :=
  { m with shutdown := false }

/-- The derivative of a consecutive sample pair, as computed by
`processSample`: `(curr.Reading - prev.Reading) / dt`. -/
def derivOf (a b : Sample) : ℚ :=
  (b.reading - a.reading) / (b.timestamp - a.timestamp)

/-- The derivative list determined by a sample list: one first-difference
quotient per consecutive pair. Under strictly increasing timestamps the
meter's derivative buffer always equals `derivList` of its sample buffer. -/
def derivList : List Sample → List ℚ
  | a :: b :: rest => derivOf a b :: derivList (b :: rest)
  | _ => []

/-- Timestamps strictly increase along the list. -/
@[reducible] def TsSorted (l : List Sample) : Prop :=
  l.Pairwise (fun a b => a.timestamp < b.timestamp)

/-- Every retained pulse is well-formed relative to the current buffer:
indices within bounds, start strictly before end, and duration at least the
configured minimum. -/
def PulseBounds (m : Meter) : Prop :=
  ∀ p ∈ m.pulses, 0 ≤ p.startIndex ∧ p.startIndex < p.endIndex ∧
    p.endIndex < (m.samples.length : ℤ) ∧
    m.minPulseDuration ≤ p.endTime - p.startTime

/-- Master invariant of reachable meter states (under strictly increasing
input timestamps): sorted buffer, derivative buffer in exact correspondence
with the sample pairs, and well-formed pulses. -/
def Inv (m : Meter) : Prop :=
  TsSorted m.samples ∧ m.derivatives = derivList m.samples ∧ PulseBounds m

/-! ### Generic list helpers -/

theorem getD_append_lt {α : Type} (l₁ l₂ : List α) (d : α) (i : ℕ)
    (h : i < l₁.length) : (l₁ ++ l₂).getD i d = l₁.getD i d := by
  induction l₁ generalizing i with
  | nil => simp at h
  | cons a t ih =>
    cases i with
    | zero => rfl
    | succ j => simpa using ih j (by simpa using h)

theorem getD_append_ge {α : Type} (l₁ l₂ : List α) (d : α) (i : ℕ)
    (h : l₁.length ≤ i) : (l₁ ++ l₂).getD i d = l₂.getD (i - l₁.length) d := by
  induction l₁ generalizing i with
  | nil => simp
  | cons a t ih =>
    cases i with
    | zero => simp at h
    | succ j => simpa using ih j (by simpa using h)

theorem getD_drop {α : Type} (l : List α) (k i : ℕ) (d : α) :
    (l.drop k).getD i d = l.getD (k + i) d := by
  induction l generalizing k with
  | nil => simp
  | cons a t ih =>
    cases k with
    | zero => simp
    | succ j =>
      have harith : j + 1 + i = (j + i) + 1 := by omega
      rw [harith, List.drop_succ_cons, List.getD_cons_succ]
      exact ih j

theorem getLast?_eq_getD {α : Type} [Inhabited α] (l : List α) (h : l ≠ []) :
    l.getLast? = some (l.getD (l.length - 1) default) := by
  induction l with
  | nil => exact absurd rfl h
  | cons a t ih =>
    cases t with
    | nil => rfl
    | cons b r =>
      rw [List.getLast?_cons_cons, ih (by simp)]
      simp

theorem chain_of_suffix {α : Type} {R : α → α → Prop} {l l' : List α}
    (h : l.Chain' R) (hs : l' <:+ l) : l'.Chain' R := by
  obtain ⟨u, rfl⟩ := hs
  exact (List.chain'_append.mp h).2.1

theorem suffix_append_same {α : Type} {l l' : List α} (w : List α)
    (hs : l' <:+ l) : l' ++ w <:+ l ++ w := by
  obtain ⟨u, rfl⟩ := hs
  exact ⟨u, (List.append_assoc u l' w).symm⟩

theorem chain_take {α : Type} {R : α → α → Prop} {l : List α}
    (h : l.Chain' R) (k : ℕ) : (l.take k).Chain' R := by
  have := (List.take_append_drop k l) ▸ h
  exact (List.chain'_append.mp this).1

/-! ### Facts about the eviction index search -/

theorem firstIdx_lt_length {p : Sample → Bool} {l : List Sample} {j : ℕ}
    (h : firstIdx? p l = some j) : j < l.length := by
  induction l generalizing j with
  | nil => simp [firstIdx?] at h
  | cons a t ih =>
    unfold firstIdx? at h
    by_cases hpa : p a
    · rw [if_pos hpa] at h
      cases h
      exact Nat.succ_pos t.length
    · rw [if_neg hpa] at h
      cases hi : firstIdx? p t with
      | none => rw [hi] at h; cases h
      | some i =>
        rw [hi] at h
        simp at h
        have := ih hi
        simp only [List.length_cons]
        omega

theorem firstIdx_none_iff {p : Sample → Bool} {l : List Sample} :
    firstIdx? p l = none ↔ ∀ x ∈ l, p x = false := by
  induction l with
  | nil => simp [firstIdx?]
  | cons a t ih =>
    unfold firstIdx?
    by_cases hpa : p a
    · rw [if_pos hpa]
      constructor
      · intro h; cases h
      · intro h
        have := h a (List.mem_cons_self a t)
        rw [hpa] at this
        cases this
    · rw [if_neg hpa]
      constructor
      · intro h x hx
        rcases List.mem_cons.mp hx with rfl | hmem
        · exact Bool.eq_false_iff.mpr hpa
        · cases hi : firstIdx? p t with
          | none => exact ih.mp hi x hmem
          | some i => rw [hi] at h; cases h
      · intro h
        have : firstIdx? p t = none :=
          ih.mpr (fun x hx => h x (List.mem_cons_of_mem a hx))
        rw [this]
        rfl

theorem evictCount_le (m : Meter) (s : Sample) :
    evictCount m s ≤ m.samples.length := by
  unfold evictCount
  cases h : firstIdx? (fun x => decide (s.timestamp - m.windowDuration < x.timestamp))
      (m.samples ++ [s]) with
  | none => simp
  | some j =>
    have := firstIdx_lt_length h
    simp at this ⊢
    omega

theorem drop_firstIdx_eq_filter (c : ℚ) (l : List Sample)
    (hl : TsSorted l) (hx : ∃ x ∈ l, c < x.timestamp) :
    l.drop ((firstIdx? (fun x => decide (c < x.timestamp)) l).getD 0)
      = l.filter (fun x => decide (c < x.timestamp)) := by
  induction l with
  | nil => simp at hx
  | cons a t ih =>
    by_cases hpa : c < a.timestamp
    · have hall : ∀ y ∈ t, c < y.timestamp := by
        intro y hy
        have := (List.pairwise_cons.mp hl).1 y hy
        linarith
      have : t.filter (fun x => decide (c < x.timestamp)) = t :=
        List.filter_eq_self.mpr (by intro y hy; simpa using hall y hy)
      simp [firstIdx?, hpa, this]
    · have hxt : ∃ x ∈ t, c < x.timestamp := by
        obtain ⟨x, hx1, hx2⟩ := hx
        rcases List.mem_cons.mp hx1 with rfl | hmem
        · exact absurd hx2 hpa
        · exact ⟨x, hmem, hx2⟩
      have hsome : ∃ j, firstIdx? (fun x => decide (c < x.timestamp)) t = some j := by
        cases h : firstIdx? (fun x => decide (c < x.timestamp)) t with
        | none =>
          obtain ⟨x, hx1, hx2⟩ := hxt
          have := (firstIdx_none_iff.mp h) x hx1
          simp [hx2] at this
        | some j => exact ⟨j, rfl⟩
      obtain ⟨j, hj⟩ := hsome
      have ihr := ih (List.Pairwise.of_cons hl) hxt
      rw [hj] at ihr
      simp only [firstIdx?, hpa, decide_False, Bool.false_eq_true, if_false, hj,
        Option.map_some, Option.getD_some] at ihr ⊢
      simp [hpa, ihr]

/-! ### Facts about the backwards active-pulse search -/

theorem findLastIdx_lt {ps : List Pulse} {tgt : ℤ} {j : ℕ}
    (h : findLastIdx ps tgt = some j) : j < ps.length := by
  induction ps generalizing j with
  | nil => simp [findLastIdx] at h
  | cons p rest ih =>
    unfold findLastIdx at h
    cases hr : findLastIdx rest tgt with
    | some i =>
      rw [hr] at h
      cases h
      have := ih hr
      simp only [List.length_cons]
      omega
    | none =>
      rw [hr] at h
      by_cases he : p.endIndex = tgt
      · rw [if_pos he] at h
        cases h
        exact Nat.succ_pos rest.length
      · rw [if_neg he] at h
        cases h

theorem findLastIdx_getD {ps : List Pulse} {tgt : ℤ} {j : ℕ}
    (h : findLastIdx ps tgt = some j) : (ps.getD j default).endIndex = tgt := by
  induction ps generalizing j with
  | nil => simp [findLastIdx] at h
  | cons p rest ih =>
    unfold findLastIdx at h
    cases hr : findLastIdx rest tgt with
    | some i =>
      rw [hr] at h
      cases h
      simpa using ih hr
    | none =>
      rw [hr] at h
      by_cases he : p.endIndex = tgt
      · simp [he] at h
        subst h
        simpa using he
      · simp [he] at h

theorem findLastIdx_eq_none_iff {ps : List Pulse} {tgt : ℤ} :
    findLastIdx ps tgt = none ↔ ∀ p ∈ ps, p.endIndex ≠ tgt := by
  induction ps with
  | nil => simp [findLastIdx]
  | cons p rest ih =>
    unfold findLastIdx
    cases hr : findLastIdx rest tgt with
    | some i =>
      simp only [hr]
      constructor
      · intro h
        simp at h
      · intro h
        have := ih.mpr (fun q hq => h q (List.mem_cons_of_mem p hq))
        rw [this] at hr
        cases hr
    | none =>
      have hrest := ih.mp hr
      by_cases he : p.endIndex = tgt
      · simp [he]
      · simp only [he, if_false]
        constructor
        · intro _ q hq
          rcases List.mem_cons.mp hq with rfl | hmem
          · exact he
          · exact hrest q hmem
        · intro _
          trivial

/-! ### Facts about `derivList` -/

theorem derivList_length (l : List Sample) :
    (derivList l).length = l.length - 1 := by
  induction l with
  | nil => rfl
  | cons a t ih =>
    cases t with
    | nil => rfl
    | cons b r =>
      simp only [derivList, List.length_cons] at ih ⊢
      omega

theorem derivList_drop (k : ℕ) (l : List Sample) :
    derivList (l.drop k) = (derivList l).drop k := by
  induction l generalizing k with
  | nil => simp [derivList]
  | cons a t ih =>
    cases k with
    | zero => rfl
    | succ j =>
      cases t with
      | nil => simp [derivList]
      | cons b r =>
        simpa [derivList] using ih j

theorem derivList_append_last {l : List Sample} {a : Sample}
    (h : l.getLast? = some a) (s : Sample) :
    derivList (l ++ [s]) = derivList l ++ [derivOf a s] := by
  induction l with
  | nil => simp at h
  | cons x t ih =>
    cases t with
    | nil =>
      simp at h
      subst h
      rfl
    | cons y r =>
      rw [List.getLast?_cons_cons] at h
      have hih := ih h
      show derivOf x y :: derivList ((y :: r) ++ [s])
        = (derivOf x y :: derivList (y :: r)) ++ [derivOf a s]
      rw [hih]
      simp

theorem derivList_getD (l : List Sample) (i : ℕ) (h : i + 1 < l.length) :
    (derivList l).getD i 0 = derivOf (l.getD i default) (l.getD (i + 1) default) := by
  induction l generalizing i with
  | nil => simp at h
  | cons a t ih =>
    cases t with
    | nil => simp at h
    | cons b r =>
      cases i with
      | zero => rfl
      | succ j =>
        simp only [derivList]
        rw [List.getD_cons_succ, List.getD_cons_succ, List.getD_cons_succ]
        exact ih j (by simpa using h)

/-! ### Projection and configuration preservation -/

theorem updatePulses_samples (m : Meter) : (updatePulses m).samples = m.samples := by
  unfold updatePulses
  split <;> rfl

theorem updatePulses_derivatives (m : Meter) :
    (updatePulses m).derivatives = m.derivatives := by
  unfold updatePulses
  split <;> rfl

theorem updatePulses_windowDuration (m : Meter) :
    (updatePulses m).windowDuration = m.windowDuration := by
  unfold updatePulses
  split <;> rfl

theorem updatePulses_threshold (m : Meter) :
    (updatePulses m).threshold = m.threshold := by
  unfold updatePulses
  split <;> rfl

theorem updatePulses_minPulseDuration (m : Meter) :
    (updatePulses m).minPulseDuration = m.minPulseDuration := by
  unfold updatePulses
  split <;> rfl

theorem updatePulses_shutdown (m : Meter) :
    (updatePulses m).shutdown = m.shutdown := by
  unfold updatePulses
  split <;> rfl

theorem ingestSample_windowDuration (m : Meter) (s : Sample) :
    (ingestSample m s).windowDuration = m.windowDuration := rfl

theorem ingestSample_threshold (m : Meter) (s : Sample) :
    (ingestSample m s).threshold = m.threshold := rfl

theorem ingestSample_minPulseDuration (m : Meter) (s : Sample) :
    (ingestSample m s).minPulseDuration = m.minPulseDuration := rfl

theorem ingestSample_shutdown (m : Meter) (s : Sample) :
    (ingestSample m s).shutdown = m.shutdown := rfl

theorem processSample_samples (m : Meter) (s : Sample) :
    (processSample m s).samples = (ingestSample m s).samples :=
  updatePulses_samples _

theorem processSample_derivatives (m : Meter) (s : Sample) :
    (processSample m s).derivatives = (ingestSample m s).derivatives :=
  updatePulses_derivatives _

theorem processSample_windowDuration (m : Meter) (s : Sample) :
    (processSample m s).windowDuration = m.windowDuration :=
  (updatePulses_windowDuration _).trans (ingestSample_windowDuration m s)

theorem processSample_threshold (m : Meter) (s : Sample) :
    (processSample m s).threshold = m.threshold :=
  (updatePulses_threshold _).trans (ingestSample_threshold m s)

theorem processSample_minPulseDuration (m : Meter) (s : Sample) :
    (processSample m s).minPulseDuration = m.minPulseDuration :=
  (updatePulses_minPulseDuration _).trans (ingestSample_minPulseDuration m s)

theorem processSample_shutdown (m : Meter) (s : Sample) :
    (processSample m s).shutdown = m.shutdown :=
  (updatePulses_shutdown _).trans (ingestSample_shutdown m s)

theorem runSamples_nil (m : Meter) : runSamples m [] = m := rfl

theorem runSamples_cons (m : Meter) (s : Sample) (t : List Sample) :
    runSamples m (s :: t) = runSamples (processSample m s) t := rfl

theorem runSamples_append (m : Meter) (l₁ l₂ : List Sample) :
    runSamples m (l₁ ++ l₂) = runSamples (runSamples m l₁) l₂ :=
  List.foldl_append _ _ _ _

theorem runSamples_windowDuration (m : Meter) (l : List Sample) :
    (runSamples m l).windowDuration = m.windowDuration := by
  induction l generalizing m with
  | nil => rfl
  | cons s t ih => rw [runSamples_cons, ih, processSample_windowDuration]

theorem runSamples_threshold (m : Meter) (l : List Sample) :
    (runSamples m l).threshold = m.threshold := by
  induction l generalizing m with
  | nil => rfl
  | cons s t ih => rw [runSamples_cons, ih, processSample_threshold]

theorem runSamples_minPulseDuration (m : Meter) (l : List Sample) :
    (runSamples m l).minPulseDuration = m.minPulseDuration := by
  induction l generalizing m with
  | nil => rfl
  | cons s t ih => rw [runSamples_cons, ih, processSample_minPulseDuration]

theorem runSamples_shutdown (m : Meter) (l : List Sample) :
    (runSamples m l).shutdown = m.shutdown := by
  induction l generalizing m with
  | nil => rfl
  | cons s t ih => rw [runSamples_cons, ih, processSample_shutdown]

/-! ### The ingest phase in normal form -/

theorem evictSamples_eq_drop (samples : List Sample) (k : ℕ) :
    evictSamples samples k = samples.drop k := by
  unfold evictSamples
  by_cases h : 0 < k
  · rw [if_pos h]
  · have h0 : k = 0 := by omega
    simp [h0]

theorem ingest_samples_eq (m : Meter) (s : Sample) :
    (ingestSample m s).samples = (m.samples ++ [s]).drop (evictCount m s) :=
  evictSamples_eq_drop _ _

theorem ingest_pulses_eq (m : Meter) (s : Sample) :
    (ingestSample m s).pulses = evictPulses m.pulses (evictCount m s) := rfl

theorem ingest_derivatives_eq (m : Meter) (s : Sample) :
    (ingestSample m s).derivatives =
      derivStep (evictSamples (m.samples ++ [s]) (evictCount m s))
        (evictDerivs m.derivatives (evictCount m s)) := rfl

theorem drop_append_le {α : Type} {l₁ : List α} (l₂ : List α) {k : ℕ}
    (h : k ≤ l₁.length) : (l₁ ++ l₂).drop k = l₁.drop k ++ l₂ := by
  induction l₁ generalizing k with
  | nil =>
    have h0 : k = 0 := by simpa using h
    simp [h0]
  | cons a t ih =>
    cases k with
    | zero => simp
    | succ j => simpa using ih (by simpa using h)

theorem getD_mem_of_lt {α : Type} (l : List α) (n : ℕ) (d : α)
    (h : n < l.length) : l.getD n d ∈ l := by
  rw [List.getD_eq_getElem?_getD, List.getElem?_eq_getElem h]
  exact List.getElem_mem h

theorem getLast?_drop_of_ne_nil {α : Type} {l : List α} {k : ℕ}
    (h : l.drop k ≠ []) : (l.drop k).getLast? = l.getLast? := by
  conv_rhs => rw [← List.take_append_drop k l]
  rw [List.getLast?_append_of_ne_nil _ h]

theorem evictDerivs_of_lt (derivs : List ℚ) (k n : ℕ)
    (hlen : derivs.length = n - 1) (hlt : k < n) :
    evictDerivs derivs k = derivs.drop k := by
  unfold evictDerivs
  by_cases h : 0 < k
  · rw [if_pos h, if_pos (by omega)]
  · have h0 : k = 0 := by omega
    simp [h0]

theorem evictDerivs_clear (derivs : List ℚ) (k : ℕ)
    (h1 : 0 < k) (h2 : derivs.length < k) :
    evictDerivs derivs k = [] := by
  unfold evictDerivs
  rw [if_pos h1, if_neg (by omega)]

theorem derivStep_small (samples2 : List Sample) (derivs2 : List ℚ)
    (h : samples2.length < 2) : derivStep samples2 derivs2 = derivs2 := by
  unfold derivStep
  rw [if_neg (by omega)]

theorem derivStep_append (L : List Sample) (s a : Sample) (derivs2 : List ℚ)
    (hL : L.getLast? = some a) (hlen : derivs2.length = L.length - 1)
    (hts : a.timestamp < s.timestamp) :
    derivStep (L ++ [s]) derivs2 = derivs2 ++ [derivOf a s] := by
  have hLpos : 1 ≤ L.length := by
    cases L with
    | nil => simp at hL
    | cons x t => simp
  have hlen2 : (L ++ [s]).length = L.length + 1 := by simp
  have hprev : (L ++ [s]).getD ((L ++ [s]).length - 2) default
      = L.getD (L.length - 1) default := by
    rw [hlen2]
    have : L.length + 1 - 2 = L.length - 1 := by omega
    rw [this, getD_append_lt _ _ _ _ (by omega)]
  have hprev_a : L.getD (L.length - 1) default = a := by
    have := getLast?_eq_getD L (by intro hnil; rw [hnil] at hL; simp at hL)
    rw [this] at hL
    exact Option.some_injective _ hL
  have hcurr : (L ++ [s]).getD ((L ++ [s]).length - 1) default = s := by
    rw [hlen2]
    have h1 : L.length + 1 - 1 = L.length := by omega
    rw [h1, getD_append_ge _ _ _ _ (by omega)]
    simp
  unfold derivStep
  rw [if_pos (by omega)]
  simp only [hprev, hprev_a, hcurr]
  rw [if_pos (by linarith)]
  have hdslen : (derivs2 ++ [(s.reading - a.reading) / (s.timestamp - a.timestamp)]).length
      = L.length := by
    simp [hlen]
    omega
  rw [if_neg (by rw [hdslen, hlen2]; omega)]
  rfl

theorem ingest_derivList (m : Meter) (s : Sample)
    (hd : m.derivatives = derivList m.samples)
    (hub : ∀ x ∈ m.samples, x.timestamp < s.timestamp) :
    (ingestSample m s).derivatives = derivList (ingestSample m s).samples := by
  have hk := evictCount_le m s
  have hdl : m.derivatives.length = m.samples.length - 1 := by
    rw [hd, derivList_length]
  rw [ingest_derivatives_eq, ingest_samples_eq, evictSamples_eq_drop]
  rcases Nat.lt_or_ge (evictCount m s) m.samples.length with hlt | hge
  · -- some old samples survive
    have hdropapp : (m.samples ++ [s]).drop (evictCount m s)
        = m.samples.drop (evictCount m s) ++ [s] :=
      drop_append_le _ (le_of_lt hlt)
    have hLlen : (m.samples.drop (evictCount m s)).length
        = m.samples.length - evictCount m s := by simp
    have hLne : m.samples.drop (evictCount m s) ≠ [] := by
      have hpos : 0 < (m.samples.drop (evictCount m s)).length := by
        rw [hLlen]
        omega
      intro hnil
      rw [hnil] at hpos
      simp at hpos
    obtain ⟨a, ha⟩ : ∃ a, (m.samples.drop (evictCount m s)).getLast? = some a := by
      rw [getLast?_eq_getD _ hLne]
      exact ⟨_, rfl⟩
    have hamem : a ∈ m.samples := by
      have := List.mem_of_getLast?_eq_some ha
      exact (List.drop_sublist _ _).mem this
    have hts : a.timestamp < s.timestamp := hub a hamem
    rw [hdropapp, evictDerivs_of_lt m.derivatives (evictCount m s) m.samples.length hdl hlt,
      hd, ← derivList_drop]
    rw [derivStep_append _ _ a _ ha (by rw [derivList_length]) hts]
    rw [derivList_append_last ha]
  · -- every old sample is evicted
    have hkn : evictCount m s = m.samples.length := le_antisymm hk hge
    have hdropall : (m.samples ++ [s]).drop (evictCount m s) = [s] := by
      rw [hkn]
      exact List.drop_left m.samples [s]
    rw [hdropall, derivStep_small _ _ (by simp)]
    rcases Nat.eq_zero_or_pos m.samples.length with hn0 | hnpos
    · have hnil : m.samples = [] := List.length_eq_zero.mp hn0
      have : evictCount m s = 0 := by omega
      rw [this]
      unfold evictDerivs
      rw [if_neg (by omega), hd, hnil]
      rfl
    · rw [evictDerivs_clear m.derivatives (evictCount m s) (by omega) (by omega)]
      rfl

/-! ### Invariant preservation -/

theorem sorted_append_one (m : Meter) (s : Sample) (hs : TsSorted m.samples)
    (hub : ∀ x ∈ m.samples, x.timestamp < s.timestamp) :
    TsSorted (m.samples ++ [s]) := by
  unfold TsSorted at *
  rw [List.pairwise_append]
  refine ⟨hs, List.pairwise_singleton _ _, ?_⟩
  intro x hx y hy
  rw [List.mem_singleton] at hy
  subst hy
  exact hub x hx

theorem ingest_sorted (m : Meter) (s : Sample) (hs : TsSorted m.samples)
    (hub : ∀ x ∈ m.samples, x.timestamp < s.timestamp) :
    TsSorted (ingestSample m s).samples := by
  have happ := sorted_append_one m s hs hub
  unfold TsSorted at *
  rw [ingest_samples_eq]
  exact List.Pairwise.sublist (List.drop_sublist _ _) happ

theorem ingest_pulseBounds (m : Meter) (s : Sample) (hpb : PulseBounds m) :
    PulseBounds (ingestSample m s) := by
  have hk := evictCount_le m s
  intro q hq
  rw [ingest_pulses_eq] at hq
  have hlen2 : ((ingestSample m s).samples.length : ℤ)
      = (m.samples.length : ℤ) + 1 - (evictCount m s : ℤ) := by
    rw [ingest_samples_eq]
    rw [List.length_drop]
    have h1 : evictCount m s ≤ (m.samples ++ [s]).length := by
      simp
      omega
    rw [Nat.cast_sub h1]
    simp
  have hmin : (ingestSample m s).minPulseDuration = m.minPulseDuration :=
    ingestSample_minPulseDuration m s
  unfold evictPulses at hq
  by_cases h0 : 0 < evictCount m s
  · rw [if_pos h0] at hq
    rw [List.mem_filter] at hq
    obtain ⟨hmap, hcond⟩ := hq
    rw [List.mem_map] at hmap
    obtain ⟨p, hp, rfl⟩ := hmap
    obtain ⟨hp1, hp2, hp3, hp4⟩ := hpb p hp
    simp only [Bool.and_eq_true, decide_eq_true_eq] at hcond
    refine ⟨hcond.1, by simpa using hp2, ?_, by rw [hmin]; simpa using hp4⟩
    rw [hlen2]
    simp only []
    omega
  · rw [if_neg h0] at hq
    obtain ⟨hp1, hp2, hp3, hp4⟩ := hpb q hq
    have h00 : evictCount m s = 0 := by omega
    refine ⟨hp1, hp2, ?_, by rw [hmin]; exact hp4⟩
    rw [hlen2, h00]
    push_cast
    omega

theorem ingest_inv (m : Meter) (s : Sample) (hInv : Inv m)
    (hub : ∀ x ∈ m.samples, x.timestamp < s.timestamp) :
    Inv (ingestSample m s) := by
  obtain ⟨hs, hd, hpb⟩ := hInv
  exact ⟨ingest_sorted m s hs hub, ingest_derivList m s hd hub,
    ingest_pulseBounds m s hpb⟩

theorem detect_bounds (m : Meter) (hpb : PulseBounds m)
    (hlen : 2 ≤ m.samples.length) :
    ∀ q ∈ detectPhase m,
      q.startIndex < q.endIndex ∧ q.endIndex < (m.samples.length : ℤ) := by
  intro q hq
  have hlast_lt : ((m.samples.length : ℤ) - 1) < (m.samples.length : ℤ) := by omega
  unfold detectPhase at hq
  by_cases hheat : m.threshold < m.derivatives.getD (m.derivatives.length - 1) 0
  swap
  · rw [if_neg hheat] at hq
    obtain ⟨h1, h2, h3, h4⟩ := hpb q hq
    exact ⟨h2, h3⟩
  rw [if_pos hheat] at hq
  cases hfa : findLastIdx m.pulses ((m.samples.length : ℤ) - 1 - 1) with
  | some i =>
    rw [hfa] at hq
    rcases List.mem_or_eq_of_mem_set hq with hmem | rfl
    · obtain ⟨h1, h2, h3, h4⟩ := hpb q hmem
      exact ⟨h2, h3⟩
    · have hi := findLastIdx_lt hfa
      have hbase := hpb _ (getD_mem_of_lt m.pulses i default hi)
      unfold extendPulse
      refine ⟨?_, hlast_lt⟩
      simp only []
      omega
  | none =>
    rw [hfa] at hq
    by_cases hstart : (if 0 < m.derivatives.length - 1 then
        if m.threshold < m.derivatives.getD (m.derivatives.length - 1 - 1) 0 then
          match m.pulses.getLast? with
          | some lastPulse =>
            decide (lastPulse.endIndex + 1 < (m.samples.length : ℤ) - 1 - 1)
          | none => false
        else true
      else true) = true
    · rw [if_pos hstart] at hq
      rcases List.mem_append.mp hq with hmem | hnew
      · obtain ⟨h1, h2, h3, h4⟩ := hpb q hmem
        exact ⟨h2, h3⟩
      · rw [List.mem_singleton] at hnew
        subst hnew
        simp only []
        constructor
        · apply max_lt
          · omega
          · omega
        · exact hlast_lt
    · rw [if_neg hstart] at hq
      cases hgl : m.pulses.getLast? with
      | none =>
        rw [hgl] at hq
        obtain ⟨h1, h2, h3, h4⟩ := hpb q hq
        exact ⟨h2, h3⟩
      | some lp =>
        simp only [hgl] at hq
        by_cases hgap : (m.samples.length : ℤ) - 1 ≤ lp.endIndex + 2
        · rw [if_pos hgap] at hq
          rcases List.mem_or_eq_of_mem_set hq with hmem | rfl
          · obtain ⟨h1, h2, h3, h4⟩ := hpb q hmem
            exact ⟨h2, h3⟩
          · have hbase := hpb lp (List.mem_of_getLast?_eq_some hgl)
            unfold extendPulse
            refine ⟨?_, hlast_lt⟩
            simp only []
            omega
        · rw [if_neg hgap] at hq
          obtain ⟨h1, h2, h3, h4⟩ := hpb q hq
          exact ⟨h2, h3⟩

theorem updatePulses_pulseBounds (m : Meter) (hInv : Inv m) :
    PulseBounds (updatePulses m) := by
  obtain ⟨hs, hd, hpb⟩ := hInv
  unfold updatePulses
  by_cases hde : m.derivatives.isEmpty
  · rw [if_pos hde]
    exact hpb
  · rw [if_neg hde]
    have hdne : m.derivatives ≠ [] := by
      intro h
      rw [h] at hde
      simp at hde
    have hlen : 2 ≤ m.samples.length := by
      have h1 : 0 < m.derivatives.length := List.length_pos.mpr hdne
      rw [hd, derivList_length] at h1
      omega
    intro q hq
    simp only [] at hq
    unfold filterPhase at hq
    rw [List.mem_filter] at hq
    obtain ⟨hmem, hcond⟩ := hq
    simp only [Bool.and_eq_true, decide_eq_true_eq] at hcond
    obtain ⟨hse, hend⟩ := detect_bounds m hpb hlen q hmem
    exact ⟨hcond.1.1, hse, hend, hcond.2⟩

theorem updatePulses_inv (m : Meter) (hInv : Inv m) : Inv (updatePulses m) := by
  have hpb := updatePulses_pulseBounds m hInv
  obtain ⟨hs, hd, _⟩ := hInv
  refine ⟨?_, ?_, hpb⟩
  · unfold TsSorted at *
    rw [updatePulses_samples]
    exact hs
  · rw [updatePulses_derivatives, updatePulses_samples]
    exact hd

theorem processSample_inv (m : Meter) (s : Sample) (hInv : Inv m)
    (hub : ∀ x ∈ m.samples, x.timestamp < s.timestamp) :
    Inv (processSample m s) :=
  updatePulses_inv _ (ingest_inv m s hInv hub)

theorem runSamples_inv_aux (l : List Sample) :
    ∀ m : Meter, Inv m →
      (m.samples ++ l).Pairwise (fun a b => a.timestamp < b.timestamp) →
      Inv (runSamples m l) ∧ (runSamples m l).samples.Sublist (m.samples ++ l) := by
  induction l with
  | nil =>
    intro m hInv _
    rw [runSamples_nil]
    exact ⟨hInv, by simp⟩
  | cons s t ih =>
    intro m hInv hpw
    have hparts := List.pairwise_append.mp hpw
    have hub : ∀ x ∈ m.samples, x.timestamp < s.timestamp := by
      intro x hx
      exact hparts.2.2 x hx s (List.mem_cons_self s t)
    have hInv2 := processSample_inv m s hInv hub
    have hsub1 : (processSample m s).samples.Sublist (m.samples ++ [s]) := by
      rw [processSample_samples, ingest_samples_eq]
      exact List.drop_sublist _ _
    have hassoc : (m.samples ++ [s]) ++ t = m.samples ++ (s :: t) := by simp
    have hsub2 : ((processSample m s).samples ++ t).Sublist (m.samples ++ (s :: t)) := by
      rw [← hassoc]
      exact List.Sublist.append hsub1 (List.Sublist.refl t)
    have hpw2 : ((processSample m s).samples ++ t).Pairwise
        (fun a b => a.timestamp < b.timestamp) :=
      List.Pairwise.sublist hsub2 hpw
    rw [runSamples_cons]
    obtain ⟨hInvF, hsubF⟩ := ih (processSample m s) hInv2 hpw2
    exact ⟨hInvF, hsubF.trans hsub2⟩

theorem runSamples_inv (cfg : Config) (l : List Sample) (hinc : TsSorted l) :
    Inv (runSamples (New cfg) l) ∧ (runSamples (New cfg) l).samples.Sublist l := by
  have hInv0 : Inv (New cfg) := by
    refine ⟨List.Pairwise.nil, rfl, ?_⟩
    intro p hp
    simp [New] at hp
  have := runSamples_inv_aux l (New cfg) hInv0 (by simpa [New] using hinc)
  simpa [New] using this

/-! ### The eviction window characterization -/

theorem processSample_samples_filter (m : Meter) (s : Sample)
    (hs : TsSorted m.samples) (hub : ∀ x ∈ m.samples, x.timestamp < s.timestamp)
    (hw : 0 < m.windowDuration) :
    (processSample m s).samples
      = (m.samples ++ [s]).filter
          (fun x => decide (s.timestamp - m.windowDuration < x.timestamp)) := by
  rw [processSample_samples, ingest_samples_eq]
  unfold evictCount
  have happ := sorted_append_one m s hs hub
  have hx : ∃ x ∈ m.samples ++ [s], s.timestamp - m.windowDuration < x.timestamp :=
    ⟨s, by simp, by linarith⟩
  exact drop_firstIdx_eq_filter _ _ happ hx

theorem runSamples_take_succ (m0 : Meter) (l : List Sample) (k : ℕ)
    (hk : k < l.length) :
    runSamples m0 (l.take (k+1))
      = processSample (runSamples m0 (l.take k)) (l.getD k default) := by
  have h2 : l[k]? = some (l.getD k default) := by
    rw [List.getElem?_eq_getElem hk, List.getD_eq_getElem?_getD,
      List.getElem?_eq_getElem hk]
    rfl
  have h1 : l.take (k+1) = l.take k ++ [l.getD k default] := by
    rw [List.take_succ, h2]
    rfl
  rw [h1, runSamples_append]
  rfl

theorem buffer_lt_next (cfg : Config) (l : List Sample) (hinc : TsSorted l)
    (k : ℕ) (hk : k < l.length) :
    ∀ x ∈ (runSamples (New cfg) (l.take k)).samples,
      x.timestamp < (l.getD k default).timestamp := by
  intro x hx
  have htake : TsSorted (l.take k) :=
    List.Pairwise.sublist (List.take_sublist _ _) hinc
  have hxk : x ∈ l.take k := (runSamples_inv cfg (l.take k) htake).2.mem hx
  have hpw := hinc
  unfold TsSorted at hpw
  rw [← List.take_append_drop k l] at hpw
  have hparts := List.pairwise_append.mp hpw
  have hmemdrop : l.getD k default ∈ l.drop k := by
    rw [List.getD_eq_getElem?_getD, List.getElem?_eq_getElem hk]
    rw [List.drop_eq_getElem_cons hk]
    exact List.mem_cons_self _ _
  exact hparts.2.2 x hxk _ hmemdrop

/-- C6: for a strictly time-increasing input stream and a positive window,
after each push the buffer equals the appended buffer filtered to the samples
strictly after the cutoff `latest.timestamp - windowDuration` (so eviction
removes exactly the samples at or before the cutoff), and in particular every
remaining sample is strictly newer than the cutoff. -/
theorem C6_eviction_window (cfg : Config) (input : List Sample)
    (hw : 0 < cfg.windowSeconds) (hinc : TsSorted input) :
    ∀ k, k < input.length →
      ((runSamples (New cfg) (input.take (k+1))).samples
        = ((runSamples (New cfg) (input.take k)).samples ++ [input.getD k default]).filter
            (fun x => decide ((input.getD k default).timestamp - cfg.windowSeconds
              < x.timestamp))) ∧
      ∀ x ∈ (runSamples (New cfg) (input.take (k+1))).samples,
        (input.getD k default).timestamp - cfg.windowSeconds < x.timestamp := by
  intro k hk
  have htake : TsSorted (input.take k) :=
    List.Pairwise.sublist (List.take_sublist _ _) hinc
  have hsorted_buf : TsSorted (runSamples (New cfg) (input.take k)).samples :=
    (runSamples_inv cfg (input.take k) htake).1.1
  have hub := buffer_lt_next cfg input hinc k hk
  have hwm : (runSamples (New cfg) (input.take k)).windowDuration
      = cfg.windowSeconds := runSamples_windowDuration _ _
  have hstep := processSample_samples_filter (runSamples (New cfg) (input.take k))
    (input.getD k default) hsorted_buf hub (by rw [hwm]; exact hw)
  rw [hwm] at hstep
  rw [runSamples_take_succ _ _ _ hk]
  refine ⟨hstep, ?_⟩
  intro x hx
  rw [hstep] at hx
  have := List.mem_filter.mp hx
  simpa using this.2

/-- C1 (amended to strictly increasing timestamps): along any input stream
with strictly increasing timestamps, the derivative count equals
`max(0, samples - 1)` (truncated subtraction on `ℕ`), and `derivative[i]` is
exactly the reading difference of the sample pair `(i, i+1)` divided by its
elapsed time; since the theorem holds for arbitrary such streams, it holds at
every reachable state, across every eviction performed by `processSample`. -/
theorem C1_derivative_correspondence (cfg : Config) (input : List Sample)
    (hinc : TsSorted input) :
    (runSamples (New cfg) input).derivatives.length
        = (runSamples (New cfg) input).samples.length - 1 ∧
      ∀ i, i + 1 < (runSamples (New cfg) input).samples.length →
        (runSamples (New cfg) input).derivatives.getD i 0 =
          (((runSamples (New cfg) input).samples.getD (i+1) default).reading -
            ((runSamples (New cfg) input).samples.getD i default).reading) /
          (((runSamples (New cfg) input).samples.getD (i+1) default).timestamp -
            ((runSamples (New cfg) input).samples.getD i default).timestamp) := by
  obtain ⟨⟨hs, hd, hpb⟩, _⟩ := runSamples_inv cfg input hinc
  constructor
  · rw [hd, derivList_length]
  · intro i hi
    rw [hd, derivList_getD _ i hi]
    rfl

/-- C7: at every reachable state under strictly increasing timestamps, every
retained pulse satisfies `0 ≤ startIndex ≤ endIndex < len(samples)` and its
duration is at least `minPulseDuration`; quantifying over every prefix of the
input covers preservation across both eviction renumbering and pulse
detection. -/
theorem C7_pulse_wellformed (cfg : Config) (input : List Sample)
    (hinc : TsSorted input) :
    ∀ k, ∀ p ∈ (runSamples (New cfg) (input.take k)).pulses,
      0 ≤ p.startIndex ∧ p.startIndex ≤ p.endIndex ∧
      p.endIndex < ((runSamples (New cfg) (input.take k)).samples.length : ℤ) ∧
      cfg.minPulseDuration ≤ p.endTime - p.startTime := by
  intro k p hp
  have htake : TsSorted (input.take k) :=
    List.Pairwise.sublist (List.take_sublist _ _) hinc
  obtain ⟨⟨hs, hd, hpb⟩, _⟩ := runSamples_inv cfg (input.take k) htake
  obtain ⟨h1, h2, h3, h4⟩ := hpb p hp
  have hmin : (runSamples (New cfg) (input.take k)).minPulseDuration
      = cfg.minPulseDuration := runSamples_minPulseDuration _ _
  exact ⟨h1, le_of_lt h2, h3, by rw [← hmin]; exact h4⟩

/-! ### Short spacing keeps the pulse list empty -/

theorem ingest_pulses_empty (m : Meter) (s : Sample) (hp : m.pulses = []) :
    (ingestSample m s).pulses = [] := by
  rw [ingest_pulses_eq, hp]
  unfold evictPulses
  split <;> simp

theorem last_two_of_append (L : List Sample) (s : Sample) (hL : L ≠ []) :
    (L ++ [s]).getD ((L ++ [s]).length - 1) default = s ∧
    (L ++ [s]).getD ((L ++ [s]).length - 2) default
      = L.getD (L.length - 1) default := by
  have hLpos : 1 ≤ L.length := by
    cases L with
    | nil => exact absurd rfl hL
    | cons x t => simp
  have hlen2 : (L ++ [s]).length = L.length + 1 := by simp
  constructor
  · rw [hlen2]
    have h1 : L.length + 1 - 1 = L.length := by omega
    rw [h1, getD_append_ge _ _ _ _ (by omega)]
    simp
  · rw [hlen2]
    have h1 : L.length + 1 - 2 = L.length - 1 := by omega
    rw [h1, getD_append_lt _ _ _ _ (by omega)]

theorem detect_pulses_empty_cases (m : Meter) (hp : m.pulses = []) :
    detectPhase m = [] ∨
    detectPhase m = [⟨max ((m.samples.length : ℤ) - 1 - 1) 0,
      (m.samples.length : ℤ) - 1,
      (m.samples.getD (max ((m.samples.length : ℤ) - 1 - 1) 0).toNat
        default).timestamp,
      (m.samples.getD (m.samples.length - 1) default).timestamp,
      m.derivatives.getD (m.derivatives.length - 1) 0, 0⟩] := by
  unfold detectPhase
  rw [hp]
  by_cases hheat : m.threshold < m.derivatives.getD (m.derivatives.length - 1) 0
  · rw [if_pos hheat]
    simp only [findLastIdx]
    by_cases h1 : 0 < m.derivatives.length - 1
    · rw [if_pos h1]
      by_cases h2 : m.threshold < m.derivatives.getD (m.derivatives.length - 1 - 1) 0
      · rw [if_pos h2]
        simp
      · rw [if_neg h2]
        simp
    · rw [if_neg h1]
      simp
  · rw [if_neg hheat]
    left
    rfl

theorem updatePulses_pulses_empty (m : Meter) (hp : m.pulses = [])
    (hd : m.derivatives = derivList m.samples)
    (hspace : 2 ≤ m.samples.length →
      (m.samples.getD (m.samples.length - 1) default).timestamp -
        (m.samples.getD (m.samples.length - 2) default).timestamp
        < m.minPulseDuration) :
    (updatePulses m).pulses = [] := by
  unfold updatePulses
  by_cases hde : m.derivatives.isEmpty
  · rw [if_pos hde]
    exact hp
  · rw [if_neg hde]
    simp only []
    have hdne : m.derivatives ≠ [] := by
      intro h
      rw [h] at hde
      simp at hde
    have hlen2 : 2 ≤ m.samples.length := by
      have h1 : 0 < m.derivatives.length := List.length_pos.mpr hdne
      rw [hd, derivList_length] at h1
      omega
    rcases detect_pulses_empty_cases m hp with hcase | hcase
    · rw [hcase]
      rfl
    · rw [hcase]
      unfold filterPhase
      have hmax : max ((m.samples.length : ℤ) - 1 - 1) 0
          = (m.samples.length : ℤ) - 2 := by omega
      have htoNat : ((m.samples.length : ℤ) - 2).toNat = m.samples.length - 2 := by
        omega
      have hdur : ¬ (m.minPulseDuration ≤
          (m.samples.getD (m.samples.length - 1) default).timestamp -
          (m.samples.getD
            (max ((m.samples.length : ℤ) - 1 - 1) 0).toNat default).timestamp) := by
        rw [hmax, htoNat]
        have := hspace hlen2
        linarith
      simp [hdur]
      intro _ _
      rw [hmax, htoNat]
      have := hspace hlen2
      rw [List.getD_eq_getElem?_getD, List.getD_eq_getElem?_getD] at this
      exact this

theorem processSample_pulses_empty (m : Meter) (s : Sample)
    (hInv : Inv m) (hub : ∀ x ∈ m.samples, x.timestamp < s.timestamp)
    (hp : m.pulses = [])
    (hlast : ∀ a, m.samples.getLast? = some a →
      s.timestamp - a.timestamp < m.minPulseDuration) :
    (processSample m s).pulses = [] := by
  have hk := evictCount_le m s
  unfold processSample
  apply updatePulses_pulses_empty
  · exact ingest_pulses_empty m s hp
  · exact (ingest_inv m s hInv hub).2.1
  · intro h2
    rw [ingest_samples_eq] at h2 ⊢
    rw [ingestSample_minPulseDuration]
    have hlt : evictCount m s < m.samples.length := by
      by_contra hge
      have hkn : evictCount m s = m.samples.length := by omega
      have : (m.samples ++ [s]).drop (evictCount m s) = [s] := by
        rw [hkn]
        exact List.drop_left m.samples [s]
      rw [this] at h2
      simp at h2
    have hdropapp : (m.samples ++ [s]).drop (evictCount m s)
        = m.samples.drop (evictCount m s) ++ [s] :=
      drop_append_le _ (le_of_lt hlt)
    have hLlen : (m.samples.drop (evictCount m s)).length
        = m.samples.length - evictCount m s := by simp
    have hLne : m.samples.drop (evictCount m s) ≠ [] := by
      have hpos : 0 < (m.samples.drop (evictCount m s)).length := by
        rw [hLlen]
        omega
      intro hnil
      rw [hnil] at hpos
      simp at hpos
    obtain ⟨hlast1, hlast2⟩ := last_two_of_append (m.samples.drop (evictCount m s)) s hLne
    rw [hdropapp, hlast1, hlast2]
    obtain ⟨a, ha⟩ : ∃ a, m.samples.getLast? = some a := by
      have hne : m.samples ≠ [] := by
        intro hnil
        rw [hnil] at hlt
        simp at hlt
      rw [getLast?_eq_getD _ hne]
      exact ⟨_, rfl⟩
    have hdropLast : (m.samples.drop (evictCount m s)).getLast? = some a := by
      rw [getLast?_drop_of_ne_nil hLne]
      exact ha
    have hgetD : (m.samples.drop (evictCount m s)).getD
        ((m.samples.drop (evictCount m s)).length - 1) default = a := by
      have := getLast?_eq_getD _ hLne
      rw [this] at hdropLast
      exact Option.some_injective _ hdropLast
    rw [hgetD]
    exact hlast a ha

theorem runSamples_pulses_empty_aux (l : List Sample) :
    ∀ m : Meter, Inv m → m.pulses = [] →
      (m.samples ++ l).Pairwise (fun a b => a.timestamp < b.timestamp) →
      (m.samples ++ l).Chain'
        (fun a b => b.timestamp - a.timestamp < m.minPulseDuration) →
      (runSamples m l).pulses = [] := by
  induction l with
  | nil =>
    intro m _ hp _ _
    rw [runSamples_nil]
    exact hp
  | cons s t ih =>
    intro m hInv hp hpw hch
    have hparts := List.pairwise_append.mp hpw
    have hub : ∀ x ∈ m.samples, x.timestamp < s.timestamp := by
      intro x hx
      exact hparts.2.2 x hx s (List.mem_cons_self s t)
    have hchparts := List.chain'_append.mp hch
    have hlast : ∀ a, m.samples.getLast? = some a →
        s.timestamp - a.timestamp < m.minPulseDuration := by
      intro a ha
      exact hchparts.2.2 a ha s rfl
    have hInv2 := processSample_inv m s hInv hub
    have hp2 := processSample_pulses_empty m s hInv hub hp hlast
    have hsub1 : (processSample m s).samples <:+ (m.samples ++ [s]) := by
      rw [processSample_samples, ingest_samples_eq]
      exact List.drop_suffix _ _
    have hassoc : (m.samples ++ [s]) ++ t = m.samples ++ (s :: t) := by simp
    have hsuf2 : ((processSample m s).samples ++ t) <:+ (m.samples ++ (s :: t)) := by
      rw [← hassoc]
      exact suffix_append_same t hsub1
    have hpw2 : ((processSample m s).samples ++ t).Pairwise
        (fun a b => a.timestamp < b.timestamp) :=
      List.Pairwise.sublist hsuf2.sublist hpw
    have hch2 : ((processSample m s).samples ++ t).Chain'
        (fun a b => b.timestamp - a.timestamp
          < (processSample m s).minPulseDuration) := by
      rw [processSample_minPulseDuration]
      exact chain_of_suffix hch hsuf2
    rw [runSamples_cons]
    exact ih (processSample m s) hInv2 hp2 hpw2 hch2

/-- C10: when every consecutive input spacing is below `minPulseDuration`
(timestamps strictly increasing), the retained pulse list is empty after every
processed sample, whatever the derivatives are: a freshly opened pulse's
initial duration is one sample interval, so the minimum-duration filter
removes it in the same update, and no pulse can be extended because the list
is already empty. -/
theorem C10_no_retained_pulses (cfg : Config) (input : List Sample)
    (hinc : TsSorted input)
    (hsp : input.Chain'
      (fun a b => b.timestamp - a.timestamp < cfg.minPulseDuration)) :
    ∀ k, (runSamples (New cfg) (input.take k)).pulses = [] := by
  intro k
  have hInv0 : Inv (New cfg) := by
    refine ⟨List.Pairwise.nil, rfl, ?_⟩
    intro p hp
    simp [New] at hp
  have htakeP : TsSorted (input.take k) :=
    List.Pairwise.sublist (List.take_sublist _ _) hinc
  have htakeC := chain_take hsp k
  apply runSamples_pulses_empty_aux (input.take k) (New cfg) hInv0 rfl
  · simpa [New] using htakeP
  · simpa [New] using htakeC

/-! ### The detection and filter phases, characterized -/

/-- C2 (amended): the minimum-duration noise filter at the end of
`updatePulses` is unconditional — after any update that sees at least one
derivative, every retained pulse has duration at least `minPulseDuration`
(and an in-window `startIndex`), whether or not the pulse was still eligible
to extend; in particular a pulse opened in this very update whose initial
one-interval duration is below the minimum is removed immediately. -/
theorem C2_amended_filter (m : Meter) (hd : m.derivatives ≠ []) :
    ∀ p ∈ (updatePulses m).pulses,
      m.minPulseDuration ≤ p.endTime - p.startTime ∧
      0 ≤ p.startIndex ∧ p.startIndex < (m.samples.length : ℤ) := by
  intro p hp
  unfold updatePulses at hp
  by_cases hde : m.derivatives.isEmpty
  · rw [List.isEmpty_iff] at hde
    exact absurd hde hd
  · rw [if_neg hde] at hp
    simp only [] at hp
    unfold filterPhase at hp
    rw [List.mem_filter] at hp
    obtain ⟨_, hcond⟩ := hp
    simp only [Bool.and_eq_true, decide_eq_true_eq] at hcond
    exact ⟨hcond.2, hcond.1.1, hcond.1.2⟩

/-- C3 (amended): when no pulse is contiguously extendable (no retained pulse
has `endIndex = i - 1`, in particular in the Idle state) and the newest
derivative `d` exceeds the threshold, a new pulse `(i-1, i)` with the
corresponding timestamps and `rawValue = d` is appended by the detection
phase — provided additionally that the previous derivative (when one exists)
did not exceed the threshold; the original claim omitted that proviso. -/
theorem C3_amended_open (m : Meter)
    (hlen : 2 ≤ m.samples.length)
    (hders : m.derivatives ≠ [])
    (hidle : ∀ p ∈ m.pulses, p.endIndex ≠ (m.samples.length : ℤ) - 2)
    (hthr : m.threshold < m.derivatives.getD (m.derivatives.length - 1) 0)
    (hprev : m.derivatives.length = 1 ∨
      m.derivatives.getD (m.derivatives.length - 2) 0 ≤ m.threshold) :
    detectPhase m = m.pulses ++
      [⟨(m.samples.length : ℤ) - 2, (m.samples.length : ℤ) - 1,
        (m.samples.getD (m.samples.length - 2) default).timestamp,
        (m.samples.getD (m.samples.length - 1) default).timestamp,
        m.derivatives.getD (m.derivatives.length - 1) 0, 0⟩] := by
  have hdpos : 1 ≤ m.derivatives.length := List.length_pos.mpr hders
  have htgt : (m.samples.length : ℤ) - 1 - 1 = (m.samples.length : ℤ) - 2 := by
    ring
  have hfa : findLastIdx m.pulses ((m.samples.length : ℤ) - 1 - 1) = none := by
    rw [htgt]
    exact findLastIdx_eq_none_iff.mpr hidle
  have hmax : max ((m.samples.length : ℤ) - 1 - 1) 0
      = (m.samples.length : ℤ) - 2 := by omega
  have htoNat : ((m.samples.length : ℤ) - 2).toNat = m.samples.length - 2 := by
    omega
  have hSS : (if 0 < m.derivatives.length - 1 then
      (if m.threshold < m.derivatives.getD (m.derivatives.length - 1 - 1) 0 then
        (match m.pulses.getLast? with
         | some lastPulse =>
            decide (lastPulse.endIndex + 1 < (m.samples.length : ℤ) - 1 - 1)
         | none => false)
       else true)
    else true) = true := by
    rcases hprev with h1 | h2
    · rw [if_neg (by omega)]
    · by_cases h0 : 0 < m.derivatives.length - 1
      · have h21 : m.derivatives.length - 1 - 1 = m.derivatives.length - 2 := by
          omega
        rw [if_pos h0, h21, if_neg (not_lt.mpr h2)]
      · rw [if_neg h0]
  unfold detectPhase
  rw [if_pos hthr, hfa]
  dsimp only
  rw [hSS]
  simp only [if_true]
  congr 1
  rw [hmax, htoNat]

/-- C4 (amended): with the newest derivative above the threshold, the open
pulse is extended in place (its `endIndex` becomes the latest sample index,
`endTime` the latest timestamp, `rawValue` the new derivative, and no new
pulse is appended) exactly when either (a) some pulse is contiguous
(`endIndex = i - 1`; the last such pulse is extended), or (b) no pulse is
contiguous but the previous derivative was also above the threshold, the list
is nonempty, and the new index is within the gap tolerance of 2 of the last
pulse's `endIndex`; the original claim omitted the previous-derivative
condition in case (b). -/
theorem C4_amended_extend (m : Meter)
    (hthr : m.threshold < m.derivatives.getD (m.derivatives.length - 1) 0)
    (hcase :
      (∃ p ∈ m.pulses, p.endIndex = (m.samples.length : ℤ) - 2) ∨
      ((∀ p ∈ m.pulses, p.endIndex ≠ (m.samples.length : ℤ) - 2) ∧
        2 ≤ m.derivatives.length ∧
        m.threshold < m.derivatives.getD (m.derivatives.length - 2) 0 ∧
        m.pulses ≠ [] ∧
        (m.samples.length : ℤ) - 1 ≤
          (m.pulses.getD (m.pulses.length - 1) default).endIndex + 2)) :
    ∃ j < m.pulses.length,
      detectPhase m = m.pulses.set j
        (extendPulse (m.pulses.getD j default) ((m.samples.length : ℤ) - 1)
          (m.samples.getD (m.samples.length - 1) default).timestamp
          (m.derivatives.getD (m.derivatives.length - 1) 0)) := by
  have htgt : (m.samples.length : ℤ) - 1 - 1 = (m.samples.length : ℤ) - 2 := by
    ring
  rcases hcase with ⟨p, hpmem, hpend⟩ | ⟨hnoc, hd2, hprev, hne, hgap⟩
  · -- contiguous: findLastIdx finds some index
    obtain ⟨j, hj⟩ : ∃ j, findLastIdx m.pulses ((m.samples.length : ℤ) - 1 - 1)
        = some j := by
      cases hfa : findLastIdx m.pulses ((m.samples.length : ℤ) - 1 - 1) with
      | none =>
        have := findLastIdx_eq_none_iff.mp hfa p hpmem
        rw [htgt] at this
        exact absurd hpend this
      | some j => exact ⟨j, rfl⟩
    refine ⟨j, findLastIdx_lt hj, ?_⟩
    unfold detectPhase
    rw [if_pos hthr, hj]
  · -- gap-tolerance extension of the last pulse
    have hfa : findLastIdx m.pulses ((m.samples.length : ℤ) - 1 - 1) = none := by
      apply findLastIdx_eq_none_iff.mpr
      intro p hp
      rw [htgt]
      exact hnoc p hp
    have hlastD : m.pulses.getLast?
        = some (m.pulses.getD (m.pulses.length - 1) default) :=
      getLast?_eq_getD _ hne
    have hSS : (if 0 < m.derivatives.length - 1 then
        (if m.threshold < m.derivatives.getD (m.derivatives.length - 1 - 1) 0 then
          (match m.pulses.getLast? with
           | some lastPulse =>
              decide (lastPulse.endIndex + 1 < (m.samples.length : ℤ) - 1 - 1)
           | none => false)
         else true)
      else true) = false := by
      have h21 : m.derivatives.length - 1 - 1 = m.derivatives.length - 2 := by
        omega
      rw [if_pos (by omega), h21, if_pos hprev, hlastD]
      simp only []
      rw [decide_eq_false_iff_not]
      omega
    refine ⟨m.pulses.length - 1, by
      have := List.length_pos.mpr hne
      omega, ?_⟩
    unfold detectPhase
    rw [if_pos hthr, hfa]
    dsimp only
    rw [hSS]
    simp only [Bool.false_eq_true, if_false]
    rw [hlastD]
    dsimp only
    rw [if_pos hgap]

/-- C8 (amended): a sample with a non-monotonic or duplicate timestamp is not
dropped from the buffer — it is appended and becomes the latest sample — but
its derivative is skipped (the derivative buffer gains no entry), and
processing continues: `processSample` is total and the stream is never
halted. -/
theorem C8_amended_skip (m : Meter) (s a : Sample)
    (hlast : m.samples.getLast? = some a) (hle : s.timestamp ≤ a.timestamp) :
    (processSample m s).samples.getLast? = some s ∧
    (processSample m s).derivatives.length ≤ m.derivatives.length := by
  have hk := evictCount_le m s
  have hne : m.samples ≠ [] := by
    intro hnil
    rw [hnil] at hlast
    simp at hlast
  constructor
  · rw [processSample_samples, ingest_samples_eq,
      drop_append_le _ hk, List.getLast?_append_of_ne_nil _ (by simp)]
    rfl
  · rw [processSample_derivatives]
    rw [ingest_derivatives_eq, evictSamples_eq_drop]
    have hd2le : (evictDerivs m.derivatives (evictCount m s)).length
        ≤ m.derivatives.length := by
      unfold evictDerivs
      split
      · split
        · simp
        · simp
      · exact le_refl _
    rcases Nat.lt_or_ge ((m.samples ++ [s]).drop (evictCount m s)).length 2 with
      hsmall | hbig
    · rw [derivStep_small _ _ hsmall]
      exact hd2le
    · -- at least two samples remain: the pair is (old last, s) and dt ≤ 0
      have hlt : evictCount m s < m.samples.length := by
        by_contra hge
        have hkn : evictCount m s = m.samples.length := by omega
        have : (m.samples ++ [s]).drop (evictCount m s) = [s] := by
          rw [hkn]
          exact List.drop_left m.samples [s]
        rw [this] at hbig
        simp at hbig
      have hdropapp : (m.samples ++ [s]).drop (evictCount m s)
          = m.samples.drop (evictCount m s) ++ [s] :=
        drop_append_le _ (le_of_lt hlt)
      have hLlen : (m.samples.drop (evictCount m s)).length
          = m.samples.length - evictCount m s := by simp
      have hLne : m.samples.drop (evictCount m s) ≠ [] := by
        have hpos : 0 < (m.samples.drop (evictCount m s)).length := by
          rw [hLlen]
          omega
        intro hnil
        rw [hnil] at hpos
        simp at hpos
      obtain ⟨hlast1, hlast2⟩ :=
        last_two_of_append (m.samples.drop (evictCount m s)) s hLne
      have hdropLast : (m.samples.drop (evictCount m s)).getLast? = some a := by
        rw [getLast?_drop_of_ne_nil hLne]
        exact hlast
      have hgetD : (m.samples.drop (evictCount m s)).getD
          ((m.samples.drop (evictCount m s)).length - 1) default = a := by
        have := getLast?_eq_getD _ hLne
        rw [this] at hdropLast
        exact Option.some_injective _ hdropLast
      unfold derivStep
      rw [if_pos hbig]
      simp only []
      rw [hdropapp, hlast1, hlast2, hgetD]
      rw [if_neg (by rw [not_lt]; linarith)]
      exact hd2le

/-- C9: once the input channel of `ProcessSamples` is drained, the shutdown
flag is set, so processing any further sample (after any number of further
samples) reaches no callback; `ResetShutdown` re-arms delivery for every
subsequently processed sample and leaves the accumulated samples, derivatives
and pulses untouched. -/
theorem C9_shutdown_callbacks (m : Meter) (input : List Sample) :
    (ProcessSamples m input).shutdown = true ∧
    (∀ l : List Sample, notifies (runSamples (ProcessSamples m input) l) = false) ∧
    (∀ l : List Sample,
      notifies (runSamples (ResetShutdown (ProcessSamples m input)) l) = true) ∧
    (ResetShutdown (ProcessSamples m input)).samples
      = (ProcessSamples m input).samples ∧
    (ResetShutdown (ProcessSamples m input)).derivatives
      = (ProcessSamples m input).derivatives ∧
    (ResetShutdown (ProcessSamples m input)).pulses
      = (ProcessSamples m input).pulses := by
  refine ⟨rfl, ?_, ?_, rfl, rfl, rfl⟩
  · intro l
    unfold notifies
    rw [runSamples_shutdown]
    rfl
  · intro l
    unfold notifies
    rw [runSamples_shutdown]
    rfl

section ConcreteRuns

attribute [local semireducible] Rat.add Rat.sub Rat.mul Rat.inv

/-- C1 counterexample: the invariant `len(derivatives) = max(0, len(samples)-1)`
fails on a reachable state. Processing two samples that share the timestamp `0`
leaves 2 samples but 0 derivatives: `processSample` appends the offending
sample unconditionally and only skips the derivative because `dt = 0`. -/
theorem C1_counterexample :
    let mf := runSamples (New ⟨10, 1/1000, 1/2⟩)
      [⟨0, 1, 2, 0⟩, ⟨0, 2, 2, 0⟩]
    mf.samples.length = 2 ∧ mf.derivatives.length = 0 ∧
      ¬ mf.derivatives.length = max 0 (mf.samples.length - 1) := by
  decide

/-- C2 counterexample: with `threshold = 1/2` and `minPulseDuration = 1`,
samples at `t = 0` and `t = 1/10` with readings `0` and `1` give a derivative
of `10`, so the detection phase of that very update opens a pulse whose
`endIndex` equals the latest sample index — a pulse still eligible to extend,
not closed — yet the minimum-duration filter of the same update removes it
because its initial duration `1/10` is below the minimum. -/
theorem C2_counterexample :
    let mMid := ingestSample (runSamples (New ⟨10, 1/2, 1⟩) [⟨0, 0, 2, 0⟩])
      ⟨1/10, 1, 2, 0⟩
    (detectPhase mMid).length = 1 ∧
      ((detectPhase mMid).getD 0 default).endIndex = (mMid.samples.length : ℤ) - 1 ∧
      ((detectPhase mMid).getD 0 default).endTime -
        ((detectPhase mMid).getD 0 default).startTime < mMid.minPulseDuration ∧
      (updatePulses mMid).pulses = [] := by
  decide

/-- C3 counterexample: after samples at `t = 0, 1/10, 2/10` with readings
`0, 1, 2` (threshold `1/2`, minimum duration `1`), the state entering the
third pulse update is Idle (no pulse at all) and the new derivative is `10`,
far above the threshold — yet no pulse is opened, because the previous
derivative was also above the threshold and the pulse list is empty, so
`shouldStart` stays `false`. -/
theorem C3_counterexample :
    let mMid := ingestSample
      (runSamples (New ⟨10, 1/2, 1⟩) [⟨0, 0, 2, 0⟩, ⟨1/10, 1, 2, 0⟩])
      ⟨2/10, 2, 2, 0⟩
    mMid.pulses = [] ∧
      mMid.threshold < mMid.derivatives.getD (mMid.derivatives.length - 1) 0 ∧
      detectPhase mMid = [] ∧ (updatePulses mMid).pulses = [] := by
  decide

/-- C4 counterexample: threshold `1/2`, no minimum duration, readings
`0, 1, 2, 41/20, 61/20` at `t = 0..4`. The first three samples build an open
pulse with `endIndex = 2`; sample 4 has derivative `1/20 ≤ threshold` (a dip);
sample 5 has derivative `1 > threshold` at index `4`, which is within the gap
tolerance of 2 of the open pulse's `endIndex = 2` — yet the pulse is not
extended (its `endIndex` stays 2) and a brand-new pulse `(3,4)` is opened
instead, because the previous derivative was below the threshold. -/
theorem C4_counterexample :
    let mf := runSamples (New ⟨100, 1/2, 0⟩)
      [⟨0, 0, 2, 0⟩, ⟨1, 1, 2, 0⟩, ⟨2, 2, 2, 0⟩, ⟨3, 41/20, 2, 0⟩, ⟨4, 61/20, 2, 0⟩]
    mf.pulses.length = 2 ∧
      (mf.pulses.getD 0 default).endIndex = 2 ∧
      (mf.pulses.getD 1 default).startIndex = 3 ∧
      (mf.pulses.getD 1 default).endIndex = 4 := by
  decide

/-- C5 counterexample: window `1`, samples at `t = 0, 1/2, 3/2`. After the
third ingest only 1 sample and 0 derivatives remain — not the claimed 2
samples and 1 derivative — because eviction keeps only samples strictly newer
than `latest - window = 1/2`, so the `t = 1/2` sample is evicted too. -/
theorem C5_counterexample :
    let mf := runSamples (New ⟨1, 1/1000, 1/2⟩)
      [⟨0, 1, 2, 0⟩, ⟨1/2, 11/10, 2, 0⟩, ⟨3/2, 6/5, 2, 0⟩]
    ¬ (mf.samples.length = 2 ∧ mf.derivatives.length = 1) := by
  decide

/-- C5 amended: window `1`, samples at `t = 0, 1/2, 3/2` → after the third
ingest exactly 1 sample (the `t = 3/2` one) and 0 derivatives remain: both the
`t = 0` sample and the `t = 1/2` sample (exactly at the cutoff
`3/2 - 1 = 1/2`) are evicted together with the derivatives, because eviction
keeps only samples with timestamp strictly greater than the cutoff. -/
theorem C5_amended_eviction :
    (runSamples (New ⟨1, 1/1000, 1/2⟩)
      [⟨0, 1, 2, 0⟩, ⟨1/2, 11/10, 2, 0⟩, ⟨3/2, 6/5, 2, 0⟩]).samples
      = [⟨3/2, 6/5, 2, 0⟩] ∧
    (runSamples (New ⟨1, 1/1000, 1/2⟩)
      [⟨0, 1, 2, 0⟩, ⟨1/2, 11/10, 2, 0⟩, ⟨3/2, 6/5, 2, 0⟩]).derivatives = [] := by
  decide

/-- C8 counterexample: a non-monotonic sample (`t = 1/2` after `t = 1`) is not
skipped: the sample buffer does change — the offending sample is appended and
remains in the buffer. -/
theorem C8_counterexample :
    let mf := runSamples (New ⟨10, 1/1000, 1/2⟩)
      [⟨0, 1, 2, 0⟩, ⟨1, 2, 2, 0⟩, ⟨1/2, 3, 2, 0⟩]
    mf.samples.length = 3 ∧ mf.samples.getD 2 default = ⟨1/2, 3, 2, 0⟩ := by
  decide

/-- Witness for C1: two samples with strictly increasing timestamps. -/
theorem C1_witness :
    TsSorted [(⟨0, 1, 2, 0⟩ : Sample), ⟨1, 2, 2, 0⟩] ∧
    ((runSamples (New ⟨10, 1/1000, 1/2⟩)
        [(⟨0, 1, 2, 0⟩ : Sample), ⟨1, 2, 2, 0⟩]).derivatives.length
      = (runSamples (New ⟨10, 1/1000, 1/2⟩)
        [(⟨0, 1, 2, 0⟩ : Sample), ⟨1, 2, 2, 0⟩]).samples.length - 1 ∧
    ∀ i, i + 1 < (runSamples (New ⟨10, 1/1000, 1/2⟩)
        [(⟨0, 1, 2, 0⟩ : Sample), ⟨1, 2, 2, 0⟩]).samples.length →
      (runSamples (New ⟨10, 1/1000, 1/2⟩)
        [(⟨0, 1, 2, 0⟩ : Sample), ⟨1, 2, 2, 0⟩]).derivatives.getD i 0 =
        (((runSamples (New ⟨10, 1/1000, 1/2⟩)
            [(⟨0, 1, 2, 0⟩ : Sample), ⟨1, 2, 2, 0⟩]).samples.getD (i+1)
              default).reading -
          ((runSamples (New ⟨10, 1/1000, 1/2⟩)
            [(⟨0, 1, 2, 0⟩ : Sample), ⟨1, 2, 2, 0⟩]).samples.getD i
              default).reading) /
        (((runSamples (New ⟨10, 1/1000, 1/2⟩)
            [(⟨0, 1, 2, 0⟩ : Sample), ⟨1, 2, 2, 0⟩]).samples.getD (i+1)
              default).timestamp -
          ((runSamples (New ⟨10, 1/1000, 1/2⟩)
            [(⟨0, 1, 2, 0⟩ : Sample), ⟨1, 2, 2, 0⟩]).samples.getD i
              default).timestamp)) :=
  ⟨by decide, C1_derivative_correspondence ⟨10, 1/1000, 1/2⟩ _ (by decide)⟩

/-- Witness for C2: a state with one derivative. -/
theorem C2_witness :
    (runSamples (New ⟨10, 1/2, 1⟩)
        [(⟨0, 0, 2, 0⟩ : Sample), ⟨1/10, 1, 2, 0⟩]).derivatives ≠ [] ∧
    ∀ p ∈ (updatePulses (runSamples (New ⟨10, 1/2, 1⟩)
        [(⟨0, 0, 2, 0⟩ : Sample), ⟨1/10, 1, 2, 0⟩])).pulses,
      (runSamples (New ⟨10, 1/2, 1⟩)
        [(⟨0, 0, 2, 0⟩ : Sample), ⟨1/10, 1, 2, 0⟩]).minPulseDuration
          ≤ p.endTime - p.startTime ∧
      0 ≤ p.startIndex ∧
      p.startIndex < ((runSamples (New ⟨10, 1/2, 1⟩)
        [(⟨0, 0, 2, 0⟩ : Sample), ⟨1/10, 1, 2, 0⟩]).samples.length : ℤ) :=
  ⟨by decide, C2_amended_filter _ (by decide)⟩

/-- Witness for C3: Idle state, first derivative above threshold. -/
theorem C3_witness :
    (2 ≤ (ingestSample (runSamples (New ⟨10, 1/2, 1⟩) [(⟨0, 0, 2, 0⟩ : Sample)])
        ⟨1, 1, 2, 0⟩).samples.length) ∧
    (ingestSample (runSamples (New ⟨10, 1/2, 1⟩) [(⟨0, 0, 2, 0⟩ : Sample)])
        ⟨1, 1, 2, 0⟩).derivatives ≠ [] ∧
    detectPhase (ingestSample (runSamples (New ⟨10, 1/2, 1⟩)
        [(⟨0, 0, 2, 0⟩ : Sample)]) ⟨1, 1, 2, 0⟩)
      = (ingestSample (runSamples (New ⟨10, 1/2, 1⟩) [(⟨0, 0, 2, 0⟩ : Sample)])
          ⟨1, 1, 2, 0⟩).pulses ++
        [⟨((ingestSample (runSamples (New ⟨10, 1/2, 1⟩)
              [(⟨0, 0, 2, 0⟩ : Sample)]) ⟨1, 1, 2, 0⟩).samples.length : ℤ) - 2,
          ((ingestSample (runSamples (New ⟨10, 1/2, 1⟩)
              [(⟨0, 0, 2, 0⟩ : Sample)]) ⟨1, 1, 2, 0⟩).samples.length : ℤ) - 1,
          ((ingestSample (runSamples (New ⟨10, 1/2, 1⟩)
              [(⟨0, 0, 2, 0⟩ : Sample)]) ⟨1, 1, 2, 0⟩).samples.getD
            ((ingestSample (runSamples (New ⟨10, 1/2, 1⟩)
              [(⟨0, 0, 2, 0⟩ : Sample)]) ⟨1, 1, 2, 0⟩).samples.length - 2)
            default).timestamp,
          ((ingestSample (runSamples (New ⟨10, 1/2, 1⟩)
              [(⟨0, 0, 2, 0⟩ : Sample)]) ⟨1, 1, 2, 0⟩).samples.getD
            ((ingestSample (runSamples (New ⟨10, 1/2, 1⟩)
              [(⟨0, 0, 2, 0⟩ : Sample)]) ⟨1, 1, 2, 0⟩).samples.length - 1)
            default).timestamp,
          (ingestSample (runSamples (New ⟨10, 1/2, 1⟩)
              [(⟨0, 0, 2, 0⟩ : Sample)]) ⟨1, 1, 2, 0⟩).derivatives.getD
            ((ingestSample (runSamples (New ⟨10, 1/2, 1⟩)
              [(⟨0, 0, 2, 0⟩ : Sample)]) ⟨1, 1, 2, 0⟩).derivatives.length - 1) 0,
          0⟩] :=
  ⟨by decide, by decide,
    C3_amended_open _ (by decide) (by decide) (by decide) (by decide)
      (Or.inl (by decide))⟩

/-- Witness for C4: a contiguous open pulse is extended in place. -/
theorem C4_witness :
    ((ingestSample (runSamples (New ⟨100, 1/2, 0⟩)
        [(⟨0, 0, 2, 0⟩ : Sample), ⟨1, 1, 2, 0⟩]) ⟨2, 2, 2, 0⟩).threshold
      < (ingestSample (runSamples (New ⟨100, 1/2, 0⟩)
        [(⟨0, 0, 2, 0⟩ : Sample), ⟨1, 1, 2, 0⟩]) ⟨2, 2, 2, 0⟩).derivatives.getD
        ((ingestSample (runSamples (New ⟨100, 1/2, 0⟩)
          [(⟨0, 0, 2, 0⟩ : Sample), ⟨1, 1, 2, 0⟩])
            ⟨2, 2, 2, 0⟩).derivatives.length - 1) 0) ∧
    ∃ j < (ingestSample (runSamples (New ⟨100, 1/2, 0⟩)
        [(⟨0, 0, 2, 0⟩ : Sample), ⟨1, 1, 2, 0⟩]) ⟨2, 2, 2, 0⟩).pulses.length,
      detectPhase (ingestSample (runSamples (New ⟨100, 1/2, 0⟩)
          [(⟨0, 0, 2, 0⟩ : Sample), ⟨1, 1, 2, 0⟩]) ⟨2, 2, 2, 0⟩)
        = (ingestSample (runSamples (New ⟨100, 1/2, 0⟩)
            [(⟨0, 0, 2, 0⟩ : Sample), ⟨1, 1, 2, 0⟩]) ⟨2, 2, 2, 0⟩).pulses.set j
          (extendPulse ((ingestSample (runSamples (New ⟨100, 1/2, 0⟩)
              [(⟨0, 0, 2, 0⟩ : Sample), ⟨1, 1, 2, 0⟩])
                ⟨2, 2, 2, 0⟩).pulses.getD j default)
            (((ingestSample (runSamples (New ⟨100, 1/2, 0⟩)
              [(⟨0, 0, 2, 0⟩ : Sample), ⟨1, 1, 2, 0⟩])
                ⟨2, 2, 2, 0⟩).samples.length : ℤ) - 1)
            ((ingestSample (runSamples (New ⟨100, 1/2, 0⟩)
              [(⟨0, 0, 2, 0⟩ : Sample), ⟨1, 1, 2, 0⟩]) ⟨2, 2, 2, 0⟩).samples.getD
              ((ingestSample (runSamples (New ⟨100, 1/2, 0⟩)
                [(⟨0, 0, 2, 0⟩ : Sample), ⟨1, 1, 2, 0⟩])
                  ⟨2, 2, 2, 0⟩).samples.length - 1) default).timestamp
            ((ingestSample (runSamples (New ⟨100, 1/2, 0⟩)
              [(⟨0, 0, 2, 0⟩ : Sample), ⟨1, 1, 2, 0⟩])
                ⟨2, 2, 2, 0⟩).derivatives.getD
              ((ingestSample (runSamples (New ⟨100, 1/2, 0⟩)
                [(⟨0, 0, 2, 0⟩ : Sample), ⟨1, 1, 2, 0⟩])
                  ⟨2, 2, 2, 0⟩).derivatives.length - 1) 0)) :=
  ⟨by decide, C4_amended_extend _ (by decide) (Or.inl (by decide))⟩

/-- Witness for C6: window `1`, two samples `1.5` apart. -/
theorem C6_witness :
    (0 : ℚ) < 1 ∧ TsSorted [(⟨0, 1, 2, 0⟩ : Sample), ⟨3/2, 2, 2, 0⟩] ∧
    ∀ k, k < ([(⟨0, 1, 2, 0⟩ : Sample), ⟨3/2, 2, 2, 0⟩] : List Sample).length →
      ((runSamples (New ⟨1, 1/1000, 1/2⟩)
          (([(⟨0, 1, 2, 0⟩ : Sample), ⟨3/2, 2, 2, 0⟩]).take (k+1))).samples
        = ((runSamples (New ⟨1, 1/1000, 1/2⟩)
            (([(⟨0, 1, 2, 0⟩ : Sample), ⟨3/2, 2, 2, 0⟩]).take k)).samples ++
            [([(⟨0, 1, 2, 0⟩ : Sample), ⟨3/2, 2, 2, 0⟩]).getD k default]).filter
            (fun x => decide
              ((([(⟨0, 1, 2, 0⟩ : Sample), ⟨3/2, 2, 2, 0⟩]).getD k
                default).timestamp - (⟨1, 1/1000, 1/2⟩ : Config).windowSeconds
                  < x.timestamp))) ∧
      ∀ x ∈ (runSamples (New ⟨1, 1/1000, 1/2⟩)
          (([(⟨0, 1, 2, 0⟩ : Sample), ⟨3/2, 2, 2, 0⟩]).take (k+1))).samples,
        (([(⟨0, 1, 2, 0⟩ : Sample), ⟨3/2, 2, 2, 0⟩]).getD k default).timestamp
          - (⟨1, 1/1000, 1/2⟩ : Config).windowSeconds < x.timestamp :=
  ⟨by decide, by decide,
    C6_eviction_window ⟨1, 1/1000, 1/2⟩ _ (by decide) (by decide)⟩

/-- Witness for C7: a short heating run. -/
theorem C7_witness :
    TsSorted [(⟨0, 0, 2, 0⟩ : Sample), ⟨1, 1, 2, 0⟩] ∧
    ∀ k, ∀ p ∈ (runSamples (New ⟨10, 1/2, 1/10⟩)
        (([(⟨0, 0, 2, 0⟩ : Sample), ⟨1, 1, 2, 0⟩]).take k)).pulses,
      0 ≤ p.startIndex ∧ p.startIndex ≤ p.endIndex ∧
      p.endIndex < ((runSamples (New ⟨10, 1/2, 1/10⟩)
        (([(⟨0, 0, 2, 0⟩ : Sample), ⟨1, 1, 2, 0⟩]).take k)).samples.length : ℤ) ∧
      (⟨10, 1/2, 1/10⟩ : Config).minPulseDuration ≤ p.endTime - p.startTime :=
  ⟨by decide, C7_pulse_wellformed ⟨10, 1/2, 1/10⟩ _ (by decide)⟩

/-- Witness for C8: a non-monotonic third sample. -/
theorem C8_witness :
    (runSamples (New ⟨10, 1/1000, 1/2⟩)
        [(⟨0, 1, 2, 0⟩ : Sample), ⟨1, 2, 2, 0⟩]).samples.getLast?
      = some ⟨1, 2, 2, 0⟩ ∧
    ((⟨1/2, 3, 2, 0⟩ : Sample).timestamp ≤ (⟨1, 2, 2, 0⟩ : Sample).timestamp) ∧
    (processSample (runSamples (New ⟨10, 1/1000, 1/2⟩)
        [(⟨0, 1, 2, 0⟩ : Sample), ⟨1, 2, 2, 0⟩]) ⟨1/2, 3, 2, 0⟩).samples.getLast?
      = some ⟨1/2, 3, 2, 0⟩ ∧
    (processSample (runSamples (New ⟨10, 1/1000, 1/2⟩)
        [(⟨0, 1, 2, 0⟩ : Sample), ⟨1, 2, 2, 0⟩])
          ⟨1/2, 3, 2, 0⟩).derivatives.length
      ≤ (runSamples (New ⟨10, 1/1000, 1/2⟩)
        [(⟨0, 1, 2, 0⟩ : Sample), ⟨1, 2, 2, 0⟩]).derivatives.length := by
  refine ⟨by decide, by decide, ?_⟩
  have := C8_amended_skip (runSamples (New ⟨10, 1/1000, 1/2⟩)
    [(⟨0, 1, 2, 0⟩ : Sample), ⟨1, 2, 2, 0⟩]) ⟨1/2, 3, 2, 0⟩ ⟨1, 2, 2, 0⟩
    (by decide) (by decide)
  exact this

/-- Witness for C10: three fast samples spaced `1/10` with minimum duration 1. -/
theorem C10_witness :
    TsSorted [(⟨0, 0, 2, 0⟩ : Sample), ⟨1/10, 1, 2, 0⟩, ⟨2/10, 2, 2, 0⟩] ∧
    ([(⟨0, 0, 2, 0⟩ : Sample), ⟨1/10, 1, 2, 0⟩, ⟨2/10, 2, 2, 0⟩] :
        List Sample).Chain'
      (fun a b => b.timestamp - a.timestamp
        < (⟨10, 1/2, 1⟩ : Config).minPulseDuration) ∧
    ∀ k, (runSamples (New ⟨10, 1/2, 1⟩)
        (([(⟨0, 0, 2, 0⟩ : Sample), ⟨1/10, 1, 2, 0⟩,
          ⟨2/10, 2, 2, 0⟩]).take k)).pulses = [] :=
  ⟨by decide,
    by
      simp only [List.chain'_cons, List.chain'_singleton, and_true]
      exact ⟨by decide, by decide⟩,
    C10_no_retained_pulses ⟨10, 1/2, 1⟩ _ (by decide)
      (by
        simp only [List.chain'_cons, List.chain'_singleton, and_true]
        exact ⟨by decide, by decide⟩)⟩

end ConcreteRuns

end Golpm
